import Mathlib

/-!
Verification of the libbitcoin blockchain backend contract
(`include/bitcoin/blockchain/blockchain.hpp`).

The repository exposes an abstract interface (`class blockchain`) together
with the record types `history_row` and `stealth_row` and the free function
`spend_checksum`.  The data model below is a shallow embedding of those
declarations.  The behaviour of the operations (History Index, Stealth
Index, Reorganization Coordinator, the checksum body) is not implemented in
the header; those operations are modelled from the specification, each such
definition carrying a doc comment that says so.
-/

namespace Libbitcoin

/-- Embedding of `enum class point_ident` from blockchain.hpp: tags a
history row as an output (credit) or a spend (debit). -/
inductive point_ident where
  | output
  | spend
deriving DecidableEq, Repr

/-- Embedding of `chain::point`: a (transaction-hash, index) pair
identifying an output or the input that spends it.  The 32-byte hash is
modelled as a natural number value. -/
structure ChainPoint where
  hash : Nat
  index : Nat
deriving DecidableEq, Repr

/-- Embedding of `struct history_row` from blockchain.hpp.  The C union of
`value` and `previous_checksum` shares one 64-bit slot; it is modelled as
the single field `value`, with `history_row.previous_checksum` reading the
same slot (which union member is valid is tagged by `id`). -/
structure history_row where
  id : point_ident
  point : ChainPoint
  height : Nat
  value : Nat
deriving DecidableEq, Repr

/-- The spend reading of the union slot of a `history_row`: the checksum of
the previous output point. -/
def history_row.previous_checksum (r : history_row) : Nat := r.value

/-- Embedding of `struct stealth_row` from blockchain.hpp: ephemeral key
(no sign byte), short hash of the address (no version byte, modelled as its
bit sequence so that bit-level matching can be expressed), and transaction
hash. -/
structure stealth_row where
  ephemkey : Nat
  address : List Bool
  transaction_hash : Nat
deriving DecidableEq, Repr

/-- Modelled from the spec: the body of `spend_checksum` is not under src
(only its declaration at blockchain.hpp:412).  Spec 4.1: a deterministic,
pure `uint64` digest of the point's transaction hash and index, with no
error conditions. -/
def spend_checksum (outpoint : ChainPoint) : Nat :=
  (outpoint.hash * 2654435761 + outpoint.index * 40503 + 1) % (2 ^ 64)

/-- Modelled from the spec: construction of an output (credit) history row,
spec 3: for an output row the point is the output's own point and the union
slot holds the satoshi value. -/
def make_output_row (p : ChainPoint) (height value : Nat) : history_row :=
  ⟨point_ident.output, p, height, value⟩

/-- Modelled from the spec: construction of a spend (debit) history row,
spec 3 and 4.1: the point is the input's point and the union slot holds the
checksum of the previous output's point, never the full previous point. -/
def make_spend_row (inpoint prevout : ChainPoint) (height : Nat) : history_row :=
  ⟨point_ident.spend, inpoint, height, spend_checksum prevout⟩

/-! ### History Index (spec 4.2) -/

/-- Modelled from the spec (4.2 `append`): rows for one address are kept
ordered by ascending height, ties broken by insertion order, so a new row
goes after every row of height at most its own. -/
def insert_row (r : history_row) : List history_row → List history_row
  | [] => [r]
  | x :: t => if x.height ≤ r.height then x :: insert_row r t else r :: x :: t

/-- The History Index state: an association list from address (modelled as
a natural) to that address's row sequence. -/
abbrev HistoryIndex := List (Nat × List history_row)

/-- Modelled from the spec (4.2): the row sequence held for an address; an
unknown address yields the empty sequence. -/
def hlookup : HistoryIndex → Nat → List history_row
  | [], _ => []
  | (a, rs) :: t, addr => if a = addr then rs else hlookup t addr

/-- Modelled from the spec (4.2 `append`): add a row for an address,
keeping that address's sequence height-ordered. -/
def happend (idx : HistoryIndex) (addr : Nat) (r : history_row) : HistoryIndex :=
  match idx with
  | [] => [(addr, [r])]
  | (a, rs) :: t =>
      if a = addr then (a, insert_row r rs) :: t else (a, rs) :: happend t addr r

/-- Modelled from the spec (4.2 `remove`): drop, for one address, every row
whose height lies in the given height set (reorganization removes rows
whose height falls in the removed range). -/
def hremove (idx : HistoryIndex) (addr : Nat) (hs : List Nat) : HistoryIndex :=
  match idx with
  | [] => []
  | (a, rs) :: t =>
      if a = addr then (a, rs.filter (fun r => ¬ hs.contains r.height)) :: t
      else (a, rs) :: hremove t addr hs

/-- Truncation helper from the header contract: `limit` entries, where
`limit = 0` means unlimited. -/
def take_limit (limit : Nat) (l : List history_row) : List history_row :=
  if limit = 0 then l else l.take limit

/-- Modelled from the spec (4.2 `fetch`): rows with height at least
`from_height`, truncated to `limit` entries (`0` = unlimited); the
declaration with its default arguments is blockchain.hpp:347-349. -/
def fetch_history (idx : HistoryIndex) (address limit from_height : Nat) :
    List history_row :=
  take_limit limit ((hlookup idx address).filter (fun r => from_height ≤ r.height))

/-- Embedding of a call to `fetch_history` with the `limit` and
`from_height` arguments omitted: blockchain.hpp:348-349 declares the
defaults `limit = 0`, `from_height = 0`. -/
def fetch_history_default (idx : HistoryIndex) (address : Nat) :
    List history_row :=
  fetch_history idx address 0 0

/-- Status codes surfaced through completion handlers (`const code&` in the
header); `service_stopped` is `bc::error::service_stopped` named at
blockchain.hpp:392. -/
inductive code where
  | success
  | not_found
  | service_stopped
deriving DecidableEq, Repr

/-- Modelled from the spec (4.2 failure contract): the full result a
`fetch_handler_history` receives, status code and rows; fetching for an
unknown address completes successfully with an empty sequence, not with an
error. -/
def fetch_history_result (idx : HistoryIndex) (address limit from_height : Nat) :
    code × List history_row :=
  (code.success, fetch_history idx address limit from_height)

/-- Modelled from the spec (4.4): a keyed Chain Store read,
`fetch_block_height(hash)`; a read whose key is absent completes with a
not-found condition. -/
def fetch_block_height (store : List (Nat × Nat)) (h : Nat) : code × Nat :=
  match store with
  | [] => (code.not_found, 0)
  | (k, v) :: t => if k = h then (code.success, v) else fetch_block_height t h

/-! ### History Index operation sequences -/

/-- One mutation of the History Index: the operations spec 4.2 grants the
write path (`append` a row for an address, `remove` by height set for an
address); stores, imports and reorganizations act on the index only through
these. -/
inductive HistOp where
  | append (addr : Nat) (r : history_row)
  | remove (addr : Nat) (hs : List Nat)
deriving DecidableEq, Repr

/-- Apply one operation to the index. -/
def applyOp (idx : HistoryIndex) : HistOp → HistoryIndex
  | HistOp.append a r => happend idx a r
  | HistOp.remove a hs => hremove idx a hs

/-- The index reached from the empty index by a sequence of operations. -/
def applyOps (ops : List HistOp) : HistoryIndex :=
  ops.foldl applyOp []

/-- Specification-side effect of one operation on one address's surviving
rows, kept in arrival order: an append for the address adds its row at the
end, a remove for the address drops the rows whose height it covers. -/
def survStep (addr : Nat) (acc : List history_row) : HistOp → List history_row
  | HistOp.append a r => if a = addr then acc ++ [r] else acc
  | HistOp.remove a hs =>
      if a = addr then acc.filter (fun r => ¬ hs.contains r.height) else acc

/-- Specification-side account of one address's surviving rows, in arrival
order: a row survives when it was appended and no later remove for that
address covered its height. -/
def survivors (ops : List HistOp) (addr : Nat) : List history_row :=
  ops.foldl (survStep addr) []

/-- Stable sort by ascending height, as incremental insertion. -/
def sortH (l : List history_row) : List history_row :=
  l.foldl (fun acc r => insert_row r acc) []

/-! ### Stealth Index (spec 4.3) -/

/-- A stored Stealth Index record: the row together with the block height
it was emitted at (the struct itself carries no height; the index keys
records by height, spec 4.3). -/
structure stealth_entry where
  row : stealth_row
  height : Nat
deriving DecidableEq, Repr

/-- The Stealth Index state: the inserted records in insertion order. -/
abbrev StealthIndex := List stealth_entry

/-- Variable-length bit-pattern match: the first argument supplies both bit
pattern and bit length, and matches any bit sequence it is an initial
segment of (the `binary_type` match of blockchain.hpp:383). -/
def bitsMatch : List Bool → List Bool → Bool
  | [], _ => true
  | _ :: _, [] => false
  | a :: p, b :: h => a == b && bitsMatch p h

/-- Modelled from the spec (4.3 `scan`): the rows whose short hash matches
the given bit pattern, restricted to height at least `from_height`; the
declaration with its default argument is blockchain.hpp:383-384. -/
def fetch_stealth (idx : StealthIndex) (pfx : List Bool) (from_height : Nat) :
    List stealth_row :=
  (idx.filter (fun e => bitsMatch pfx e.row.address && from_height ≤ e.height)).map
    (fun e => e.row)

/-- Embedding of a call to `fetch_stealth` with the `from_height` argument
omitted: blockchain.hpp:384 declares the default `from_height = 0`. -/
def fetch_stealth_default (idx : StealthIndex) (pfx : List Bool) :
    List stealth_row :=
  fetch_stealth idx pfx 0

/-! ### Reorganization Coordinator (spec 4.5) -/

/-- A block as the coordinator sees it: its height together with the
History and Stealth rows derivable from it (row derivation from raw
transactions is the validation collaborator's side, out of scope).  The
stored payloads carry no height; derivation attaches the block's. -/
structure Block where
  height : Nat
  hist_data : List (Nat × history_row)
  stealth_data : List stealth_row
deriving DecidableEq, Repr

/-- The (address, row) pairs derived from a block: the payload rows at the
block's height. -/
def blockRows (b : Block) : List (Nat × history_row) :=
  b.hist_data.map (fun ar => (ar.1, ⟨ar.2.id, ar.2.point, b.height, ar.2.value⟩))

/-- The stealth entries derived from a block, at the block's height. -/
def blockStealth (b : Block) : List stealth_entry :=
  b.stealth_data.map (fun r => ⟨r, b.height⟩)

/-- The notification payload a `reorganize_handler`
(blockchain.hpp:120-121) receives: status code, fork point height, blocks
added, blocks removed. -/
structure ReorgEvent where
  ec : code
  fork_point : Nat
  added : List Block
  removed : List Block
deriving DecidableEq, Repr

/-- The backend state the coordinator drives: both derived indexes, the
pending one-shot subscriber list, the log of handler invocations made so
far (subscriber id paired with the event it was invoked with), and the
stopped flag. -/
structure ChainState where
  history : HistoryIndex
  stealth : StealthIndex
  subs : List Nat
  notes : List (Nat × ReorgEvent)
  stopped : Bool
deriving DecidableEq, Repr

/-- Embedding of `subscribe_reorganize` (blockchain.hpp:404-405): register
a handler for the next blockchain change. -/
def subscribe_reorganize (st : ChainState) (s : Nat) : ChainState :=
  ⟨st.history, st.stealth, st.subs ++ [s], st.notes, st.stopped⟩

/-- The heights of the blocks of a removed branch. -/
def removedHeights (removed : List Block) : List Nat :=
  removed.map (fun b => b.height)

/-- Modelled from the spec (4.5 step 3 for the History Index): for every
row derived from a removed block, invoke `remove` for its address over the
removed height range; then for every row derivable from an added block,
invoke `append`. -/
def reorgHistOps (added removed : List Block) : List HistOp :=
  ((removed.map blockRows).flatten).map (fun ar => HistOp.remove ar.1 (removedHeights removed))
    ++ ((added.map blockRows).flatten).map (fun ar => HistOp.append ar.1 ar.2)

/-- Modelled from the spec (4.5 steps 1-4): revise the History Index and
the Stealth Index for the `(fork_point, added, removed)` event, and only
after the indexes are fully revised, notify every pending subscriber
exactly once and clear the subscriber list. -/
def reorganize (st : ChainState) (fp : Nat) (added removed : List Block) :
    ChainState :=
  ⟨(reorgHistOps added removed).foldl applyOp st.history,
    (st.stealth.filter (fun e => ¬ (removedHeights removed).contains e.height))
      ++ (added.map blockStealth).flatten,
    [],
    st.notes ++ st.subs.map (fun s => (s, ⟨code.success, fp, added, removed⟩)),
    st.stopped⟩

/-- Modelled from the spec (4.5 step 5, blockchain.hpp:391-392): stopping
the service notifies each pending subscriber once with the
`service_stopped` code in place of chain data, and clears the list. -/
def stop_service (st : ChainState) : ChainState :=
  ⟨st.history, st.stealth, [],
    st.notes ++ st.subs.map (fun s => (s, ⟨code.service_stopped, 0, [], []⟩)),
    true⟩

/-! ### Balance (spec 3 invariant) -/

/-- A row of a history list is an unspent output when it is an output row
and no spend row of the list carries the checksum of its point
(blockchain.hpp:325-332: a spend is matched to its output by recomputing
`spend_checksum(row.point)`). -/
def unspent (l : List history_row) (r : history_row) : Bool :=
  r.id == point_ident.output
    && l.all (fun s =>
      !(s.id == point_ident.spend && s.previous_checksum == spend_checksum r.point))

/-- Sum of the values of the unspent output rows of a history list
(blockchain.hpp:331-332: summing the values for unspent outpoints gives the
balance). -/
def balanceOf (l : List history_row) : Nat :=
  ((l.filter (unspent l)).map (fun r => r.value)).sum

/-- Modelled from the spec (3, History row invariant): the balance of an
address after a sequence of index operations is the unspent-output sum over
its surviving rows. -/
def balance (ops : List HistOp) (addr : Nat) : Nat :=
  balanceOf (survivors ops addr)

/-- The height order on history rows (spec 4.2: ascending by height). -/
def heightLE (a b : history_row) : Prop :=
  a.height ≤ b.height

/-! ### Concrete scenario data (spec 8), used to exercise the theorems -/

/-- An output row payload of the to-be-removed branch block. -/
def exRowOut : history_row := ⟨point_ident.output, ⟨100, 0⟩, 0, 50⟩

/-- An output row payload of the replacing branch block. -/
def exRowOutB : history_row := ⟨point_ident.output, ⟨200, 1⟩, 0, 70⟩

/-- A stealth row of the to-be-removed branch block. -/
def exStealthA : stealth_row := ⟨11, [true, false], 21⟩

/-- A stealth row of the replacing branch block. -/
def exStealthB : stealth_row := ⟨12, [true, true], 22⟩

/-- The old-branch block at height 3 (spec 8 scenario). -/
def blockA3 : Block := ⟨3, [(7, exRowOut)], [exStealthA]⟩

/-- The replacing block at height 3 (spec 8 scenario). -/
def blockB3 : Block := ⟨3, [(7, exRowOutB)], [exStealthB]⟩

/-- A backend state holding the old branch's derived rows, with two pending
reorganization subscribers. -/
def exState : ChainState :=
  ⟨[(7, [⟨point_ident.output, ⟨100, 0⟩, 3, 50⟩])], [⟨exStealthA, 3⟩],
    [1, 2], [], false⟩

/-! ### Helper lemmas -/

theorem hlookup_happend (idx : HistoryIndex) (a b : Nat) (r : history_row) :
    hlookup (happend idx a r) b
      = if a = b then insert_row r (hlookup idx b) else hlookup idx b := by
  induction idx with
  | nil =>
      by_cases h : a = b <;> simp [happend, hlookup, insert_row, h]
  | cons kv t ih =>
      obtain ⟨k, rs⟩ := kv
      by_cases hka : k = a
      · subst hka
        by_cases hab : k = b <;> simp [happend, hlookup, hab]
      · by_cases hkb : k = b
        · have hab : ¬ a = b := fun hc => hka (hkb.trans hc.symm)
          have hba : ¬ b = a := fun hc => hka (hkb.trans hc)
          simp [happend, hlookup, hka, hkb, hab, hba]
        · simp [happend, hlookup, hka, hkb, ih]

theorem hlookup_hremove (idx : HistoryIndex) (a b : Nat) (hs : List Nat) :
    hlookup (hremove idx a hs) b
      = if a = b then (hlookup idx b).filter (fun r => ¬ hs.contains r.height)
        else hlookup idx b := by
  induction idx with
  | nil =>
      by_cases h : a = b <;> simp [hremove, hlookup, h]
  | cons kv t ih =>
      obtain ⟨k, rs⟩ := kv
      by_cases hka : k = a
      · subst hka
        by_cases hab : k = b <;> simp [hremove, hlookup, hab]
      · by_cases hkb : k = b
        · have hab : ¬ a = b := fun hc => hka (hkb.trans hc.symm)
          have hba : ¬ b = a := fun hc => hka (hkb.trans hc)
          simp [hremove, hlookup, hka, hkb, hab, hba]
        · simp [hremove, hlookup, hka, hkb, ih]

theorem hlookup_eq_nil (idx : HistoryIndex) (addr : Nat)
    (h : addr ∉ idx.map Prod.fst) : hlookup idx addr = [] := by
  induction idx with
  | nil => rfl
  | cons kv t ih =>
      obtain ⟨k, rs⟩ := kv
      simp only [List.map_cons, List.mem_cons] at h
      push_neg at h
      have hk : ¬ k = addr := fun hc => h.1 hc.symm
      simpa [hlookup, hk] using ih h.2

theorem fetch_block_height_not_found (store : List (Nat × Nat)) (k : Nat)
    (h : k ∉ store.map Prod.fst) : fetch_block_height store k = (code.not_found, 0) := by
  induction store with
  | nil => rfl
  | cons kv t ih =>
      obtain ⟨k0, v0⟩ := kv
      simp only [List.map_cons, List.mem_cons] at h
      push_neg at h
      have hk : ¬ k0 = k := fun hc => h.1 hc.symm
      simpa [fetch_block_height, hk] using ih h.2

theorem mem_insert_row {x r : history_row} :
    ∀ {l : List history_row}, x ∈ insert_row r l ↔ x = r ∨ x ∈ l
  | [] => by simp [insert_row]
  | y :: t => by
      by_cases h : y.height ≤ r.height
      · simp only [insert_row, if_pos h, List.mem_cons, mem_insert_row (l := t)]
        tauto
      · simp only [insert_row, if_neg h, List.mem_cons]

theorem insert_row_perm (r : history_row) :
    ∀ l : List history_row, (insert_row r l).Perm (r :: l)
  | [] => List.Perm.refl _
  | y :: t => by
      by_cases h : y.height ≤ r.height
      · simpa [insert_row, h] using
          ((insert_row_perm r t).cons y).trans (List.Perm.swap r y t)
      · simp [insert_row, h]

theorem pairwise_insert_row {r : history_row} :
    ∀ {l : List history_row}, List.Pairwise heightLE l →
      List.Pairwise heightLE (insert_row r l)
  | [], _ => by simp [insert_row, List.pairwise_singleton]
  | y :: t, h => by
      rcases List.pairwise_cons.mp h with ⟨hy, ht⟩
      by_cases hle : y.height ≤ r.height
      · rw [insert_row, if_pos hle]
        refine List.pairwise_cons.mpr ⟨?_, pairwise_insert_row ht⟩
        intro z hz
        rcases mem_insert_row.mp hz with hz | hz
        · subst hz; exact hle
        · exact hy z hz
      · rw [insert_row, if_neg hle]
        refine List.pairwise_cons.mpr ⟨?_, h⟩
        intro z hz
        rcases List.mem_cons.mp hz with hz | hz
        · subst hz; exact Nat.le_of_lt (Nat.lt_of_not_le hle)
        · exact Nat.le_trans (Nat.le_of_lt (Nat.lt_of_not_le hle)) (hy z hz)

theorem foldl_insert_perm :
    ∀ (l acc : List history_row),
      (l.foldl (fun acc r => insert_row r acc) acc).Perm (acc ++ l)
  | [], acc => by simp
  | r :: t, acc => by
      have h1 := foldl_insert_perm t (insert_row r acc)
      have h2 : (insert_row r acc ++ t).Perm (acc ++ r :: t) := by
        refine ((insert_row_perm r acc).append_right t).trans ?_
        simpa using List.perm_middle.symm
      simpa [List.foldl_cons] using h1.trans h2

theorem sortH_perm (l : List history_row) : (sortH l).Perm l := by
  simpa using foldl_insert_perm l []

theorem pairwise_foldl_insert :
    ∀ (l acc : List history_row), List.Pairwise heightLE acc →
      List.Pairwise heightLE (l.foldl (fun acc r => insert_row r acc) acc)
  | [], _, h => h
  | r :: t, acc, h =>
      pairwise_foldl_insert t (insert_row r acc) (pairwise_insert_row h)

theorem pairwise_sortH (l : List history_row) :
    List.Pairwise heightLE (sortH l) :=
  pairwise_foldl_insert l [] List.Pairwise.nil

theorem sortH_append_one (l : List history_row) (r : history_row) :
    sortH (l ++ [r]) = insert_row r (sortH l) := by
  simp [sortH, List.foldl_append]

theorem insert_row_eq_cons {r : history_row} :
    ∀ {l : List history_row}, (∀ x ∈ l, ¬ x.height ≤ r.height) →
      insert_row r l = r :: l
  | [], _ => rfl
  | y :: t, h => by
      rw [insert_row, if_neg (h y (List.mem_cons_self y t))]

theorem filter_insert_row (p : history_row → Bool) (r : history_row) :
    ∀ {l : List history_row}, List.Pairwise heightLE l →
      (insert_row r l).filter p
        = if p r then insert_row r (l.filter p) else l.filter p
  | [], _ => by
      by_cases h : p r <;> simp [insert_row, h]
  | y :: t, hp => by
      rcases List.pairwise_cons.mp hp with ⟨hy, ht⟩
      by_cases hle : y.height ≤ r.height
      · by_cases hpy : p y <;> by_cases hpr : p r <;>
          simp [insert_row, hle, hpy, hpr, filter_insert_row p r ht,
            List.filter_cons]
      · have h1 : insert_row r (y :: t) = r :: y :: t := by
          simp only [insert_row, if_neg hle]
        by_cases hpr : p r
        · have hall : ∀ x ∈ (y :: t).filter p, ¬ x.height ≤ r.height := by
            intro x hx
            rcases List.mem_filter.mp hx with ⟨hx, _⟩
            rcases List.mem_cons.mp hx with hx | hx
            · subst hx; exact hle
            · intro hc
              exact hle (Nat.le_trans (hy x hx) hc)
          rw [if_pos hpr, h1, insert_row_eq_cons hall]
          simp [List.filter_cons, hpr]
        · rw [if_neg hpr, h1]
          simp [List.filter_cons, hpr]

theorem filter_sortH (p : history_row → Bool) (l : List history_row) :
    (sortH l).filter p = sortH (l.filter p) := by
  induction l using List.reverseRecOn with
  | nil => rfl
  | append_singleton t r ih =>
      rw [sortH_append_one, filter_insert_row p r (pairwise_sortH t),
        List.filter_append, ih]
      by_cases hpr : p r
      · simp [hpr, sortH_append_one]
      · simp [hpr]

theorem foldl_applyOp_hlookup (addr : Nat) :
    ∀ (ops : List HistOp) (idx : HistoryIndex) (acc : List history_row),
      hlookup idx addr = sortH acc →
      hlookup (ops.foldl applyOp idx) addr
        = sortH (ops.foldl (survStep addr) acc)
  | [], _, _, h => h
  | op :: t, idx, acc, h => by
      rw [List.foldl_cons, List.foldl_cons]
      cases op with
      | append a r =>
          by_cases ha : a = addr
          · refine foldl_applyOp_hlookup addr t _ _ ?_
            rw [applyOp, hlookup_happend, if_pos ha, h, survStep, if_pos ha,
              sortH_append_one]
          · refine foldl_applyOp_hlookup addr t _ _ ?_
            rw [applyOp, hlookup_happend, if_neg ha, h, survStep, if_neg ha]
      | remove a hs =>
          by_cases ha : a = addr
          · refine foldl_applyOp_hlookup addr t _ _ ?_
            rw [applyOp, hlookup_hremove, if_pos ha, h, survStep, if_pos ha,
              filter_sortH]
          · refine foldl_applyOp_hlookup addr t _ _ ?_
            rw [applyOp, hlookup_hremove, if_neg ha, h, survStep, if_neg ha]

theorem hlookup_applyOps (ops : List HistOp) (addr : Nat) :
    hlookup (applyOps ops) addr = sortH (survivors ops addr) :=
  foldl_applyOp_hlookup addr ops [] [] rfl

theorem fetch_history_all (ops : List HistOp) (addr : Nat) :
    fetch_history (applyOps ops) addr 0 0 = sortH (survivors ops addr) := by
  rw [fetch_history, take_limit, if_pos rfl, hlookup_applyOps]
  exact List.filter_eq_self.mpr (fun r _ => by simp)

theorem mem_hlookup_foldl_append_only :
    ∀ (ops : List HistOp) (idx : HistoryIndex) (addr : Nat) (r : history_row),
      (∀ op ∈ ops, ∃ a x, op = HistOp.append a x) →
      r ∈ hlookup idx addr →
      r ∈ hlookup (ops.foldl applyOp idx) addr
  | [], _, _, _, _, hm => hm
  | op :: t, idx, addr, r, hap, hm => by
      rw [List.foldl_cons]
      refine mem_hlookup_foldl_append_only t _ addr r
        (fun o ho => hap o (List.mem_cons_of_mem op ho)) ?_
      obtain ⟨a, x, heq⟩ := hap op (List.mem_cons_self op t)
      subst heq
      rw [applyOp, hlookup_happend]
      by_cases ha : a = addr
      · rw [if_pos ha]
        exact mem_insert_row.mpr (Or.inr hm)
      · rwa [if_neg ha]

theorem append_mem_hlookup_foldl :
    ∀ (ops : List HistOp) (idx : HistoryIndex) (addr : Nat) (r : history_row),
      (∀ op ∈ ops, ∃ a x, op = HistOp.append a x) →
      HistOp.append addr r ∈ ops →
      r ∈ hlookup (ops.foldl applyOp idx) addr
  | [], _, _, _, _, hm => absurd hm (List.not_mem_nil _)
  | op :: t, idx, addr, r, hap, hm => by
      rw [List.foldl_cons]
      rcases List.mem_cons.mp hm with hm | hm
      · refine mem_hlookup_foldl_append_only t _ addr r
          (fun o ho => hap o (List.mem_cons_of_mem op ho)) ?_
        rw [← hm, applyOp, hlookup_happend, if_pos rfl]
        exact mem_insert_row.mpr (Or.inl rfl)
      · exact append_mem_hlookup_foldl t _ addr r
          (fun o ho => hap o (List.mem_cons_of_mem op ho)) hm

theorem mem_hlookup_foldl_inv :
    ∀ (ops : List HistOp) (idx : HistoryIndex) (addr : Nat) (r : history_row),
      r ∈ hlookup (ops.foldl applyOp idx) addr →
      r ∈ hlookup idx addr ∨ HistOp.append addr r ∈ ops
  | [], _, _, _, hm => Or.inl hm
  | op :: t, idx, addr, r, hm => by
      rw [List.foldl_cons] at hm
      rcases mem_hlookup_foldl_inv t _ addr r hm with hm1 | hm1
      · cases op with
        | append a x =>
            rw [applyOp, hlookup_happend] at hm1
            by_cases ha : a = addr
            · rw [if_pos ha] at hm1
              rcases mem_insert_row.mp hm1 with hx | hx
              · subst hx
                exact Or.inr (by rw [ha]; exact List.mem_cons_self _ _)
              · exact Or.inl hx
            · rw [if_neg ha] at hm1
              exact Or.inl hm1
        | remove a hs =>
            rw [applyOp, hlookup_hremove] at hm1
            by_cases ha : a = addr
            · rw [if_pos ha] at hm1
              exact Or.inl (List.mem_filter.mp hm1).1
            · rw [if_neg ha] at hm1
              exact Or.inl hm1
      · exact Or.inr (List.mem_cons_of_mem op hm1)

theorem mem_hlookup_foldl_remove_only (ops : List HistOp) (idx : HistoryIndex)
    (addr : Nat) (r : history_row)
    (hro : ∀ op ∈ ops, ∃ a hs0, op = HistOp.remove a hs0)
    (hm : r ∈ hlookup (ops.foldl applyOp idx) addr) :
    r ∈ hlookup idx addr := by
  rcases mem_hlookup_foldl_inv ops idx addr r hm with h | h
  · exact h
  · obtain ⟨a, hs0, heq⟩ := hro _ h
    exact absurd heq (by simp)

theorem remove_only_no_removed_heights :
    ∀ (ops : List HistOp) (idx : HistoryIndex) (addr : Nat) (hs : List Nat),
      (∀ op ∈ ops, ∃ a, op = HistOp.remove a hs) →
      HistOp.remove addr hs ∈ ops →
      ∀ r ∈ hlookup (ops.foldl applyOp idx) addr, hs.contains r.height = false
  | [], _, _, _, _, hm => absurd hm (List.not_mem_nil _)
  | op :: t, idx, addr, hs, hro, hm => by
      intro r hr
      rw [List.foldl_cons] at hr
      rcases List.mem_cons.mp hm with hm1 | hm1
      · have hr1 : r ∈ hlookup (applyOp idx op) addr :=
          mem_hlookup_foldl_remove_only t _ addr r
            (fun o ho =>
              (hro o (List.mem_cons_of_mem op ho)).elim fun a ha => ⟨a, hs, ha⟩)
            hr
        rw [← hm1, applyOp, hlookup_hremove, if_pos rfl] at hr1
        have := (List.mem_filter.mp hr1).2
        simpa using this
      · exact remove_only_no_removed_heights t _ addr hs
          (fun o ho => hro o (List.mem_cons_of_mem op ho)) hm1 r hr

theorem perm_all_eq {α : Type} {p : α → Bool} {l l2 : List α} (h : l.Perm l2) :
    l.all p = l2.all p := by
  induction h with
  | nil => rfl
  | cons x _ ih => simp [List.all_cons, ih]
  | swap x y l => simp [List.all_cons, Bool.and_left_comm]
  | trans _ _ ih1 ih2 => rw [ih1, ih2]

theorem unspent_perm {l l2 : List history_row} (h : l.Perm l2) (r : history_row) :
    unspent l r = unspent l2 r := by
  unfold unspent
  rw [perm_all_eq h]

theorem balanceOf_perm {l l2 : List history_row} (h : l.Perm l2) :
    balanceOf l = balanceOf l2 := by
  unfold balanceOf
  have h1 : l.filter (unspent l) = l.filter (unspent l2) :=
    List.filter_congr (fun x _ => unspent_perm h x)
  rw [h1]
  exact ((h.filter (unspent l2)).map (fun r => r.value)).sum_eq

/-! ### Claim theorems -/

/-- C3: for every address, limit and height, `fetch_history` returns
exactly the rows for the address with height at least `from_height` that
were appended and not since removed, ordered ascending by height, truncated
to `limit` entries with `limit = 0` meaning unlimited; in particular
`fetch_history` with `limit = 0` and `from_height = 0` returns every
surviving row in ascending height order. -/
theorem fetch_history_exact_rows (ops : List HistOp) (addr limit h : Nat) :
    fetch_history (applyOps ops) addr limit h
        = take_limit limit
            ((sortH (survivors ops addr)).filter (fun r => h ≤ r.height))
    ∧ List.Pairwise heightLE (fetch_history (applyOps ops) addr limit h)
    ∧ (∀ r : history_row,
        r ∈ fetch_history (applyOps ops) addr 0 h
          ↔ r ∈ survivors ops addr ∧ h ≤ r.height)
    ∧ fetch_history (applyOps ops) addr 0 0 = sortH (survivors ops addr) := by
  have hmain : fetch_history (applyOps ops) addr limit h
      = take_limit limit
          ((sortH (survivors ops addr)).filter (fun r => h ≤ r.height)) := by
    rw [fetch_history, hlookup_applyOps]
  refine ⟨hmain, ?_, ?_, fetch_history_all ops addr⟩
  · rw [hmain]
    have hsub : List.Sublist
        (take_limit limit
          ((sortH (survivors ops addr)).filter (fun r => h ≤ r.height)))
        (sortH (survivors ops addr)) := by
      rw [take_limit]
      by_cases hl : limit = 0
      · rw [if_pos hl]
        exact List.filter_sublist _
      · rw [if_neg hl]
        exact (List.take_sublist _ _).trans (List.filter_sublist _)
    exact (pairwise_sortH (survivors ops addr)).sublist hsub
  · intro r
    rw [fetch_history, hlookup_applyOps, take_limit, if_pos rfl]
    simp [List.mem_filter, (sortH_perm (survivors ops addr)).mem_iff]

/-- C9: the unspent-output sum computed from the history list that
`fetch_history` returns (all rows, from height 0) equals the address's
balance, after any sequence of index operations. -/
theorem fetch_history_balance (ops : List HistOp) (addr : Nat) :
    balanceOf (fetch_history (applyOps ops) addr 0 0) = balance ops addr := by
  rw [fetch_history_all, balance]
  exact balanceOf_perm (sortH_perm _)

/-- C8: fetching history for an address unknown to the History Index
completes successfully with an empty row sequence, while a keyed Chain
Store read with an absent key completes with a not-found condition. -/
theorem fetch_history_unknown_empty (idx : HistoryIndex) (addr limit h : Nat)
    (store : List (Nat × Nat)) (k : Nat)
    (ha : addr ∉ idx.map Prod.fst) (hk : k ∉ store.map Prod.fst) :
    fetch_history_result idx addr limit h = (code.success, [])
    ∧ fetch_block_height store k = (code.not_found, 0) := by
  constructor
  · rw [fetch_history_result, fetch_history, hlookup_eq_nil idx addr ha]
    simp [take_limit]
  · exact fetch_block_height_not_found store k hk

/-- Witness for C8 at a concrete index, store and absent keys. -/
theorem fetch_history_unknown_empty_witness :
    fetch_history_result [(1, [exRowOut])] 2 0 0 = (code.success, [])
    ∧ fetch_block_height [(5, 9)] 7 = (code.not_found, 0) :=
  fetch_history_unknown_empty [(1, [exRowOut])] 2 0 0 [(5, 9)] 7
    (by decide) (by decide)

/-- C10: calling `fetch_history` with the limit and height arguments
omitted equals `fetch_history` at `limit = 0`, `from_height = 0` — every
surviving row, unlimited — and calling `fetch_stealth` with the height
argument omitted equals `fetch_stealth` at `from_height = 0` — every
matching row. -/
theorem fetch_defaults_equiv (idx : HistoryIndex) (addr : Nat)
    (sidx : StealthIndex) (pfx : List Bool) :
    fetch_history_default idx addr = fetch_history idx addr 0 0
    ∧ fetch_history_default idx addr = hlookup idx addr
    ∧ fetch_stealth_default sidx pfx = fetch_stealth sidx pfx 0
    ∧ fetch_stealth_default sidx pfx
        = (sidx.filter (fun e => bitsMatch pfx e.row.address)).map
            (fun e => e.row) := by
  refine ⟨rfl, ?_, rfl, ?_⟩
  · rw [fetch_history_default, fetch_history, take_limit, if_pos rfl]
    exact List.filter_eq_self.mpr (fun r _ => by simp)
  · rw [fetch_stealth_default, fetch_stealth]
    congr 1
    exact List.filter_congr (fun e _ => by simp)

/-- C4: the stealth scan never omits a matching row at or above the given
height: every stored entry whose short hash matches the bit pattern and
whose height is at least `from_height` appears in the scan result. -/
theorem fetch_stealth_superset (idx : StealthIndex) (pfx : List Bool)
    (h : Nat) (e : stealth_entry) (he : e ∈ idx)
    (hmatch : bitsMatch pfx e.row.address = true) (hh : h ≤ e.height) :
    e.row ∈ fetch_stealth idx pfx h := by
  rw [fetch_stealth]
  exact List.mem_map.mpr ⟨e, List.mem_filter.mpr ⟨he, by simp [hmatch, hh]⟩, rfl⟩

/-- Witness for C4 at a concrete index, pattern and height. -/
theorem fetch_stealth_superset_witness :
    exStealthA ∈ fetch_stealth [⟨exStealthA, 3⟩] [true] 2 :=
  fetch_stealth_superset [⟨exStealthA, 3⟩] [true] 2 ⟨exStealthA, 3⟩
    (by decide) (by decide) (by decide)

/-- C5: a spend row carries, in its union slot, exactly
`spend_checksum` of the previous output's point; its own point field is the
input's point, and the correlation datum is a 64-bit checksum, not a second
copy of the previous point. -/
theorem spend_row_correlates_by_checksum (prevout inpoint : ChainPoint)
    (h hv hs : Nat) :
    (make_spend_row inpoint (make_output_row prevout h hv).point hs).previous_checksum
        = spend_checksum (make_output_row prevout h hv).point
    ∧ (make_spend_row inpoint (make_output_row prevout h hv).point hs).point
        = inpoint
    ∧ (make_spend_row inpoint (make_output_row prevout h hv).point hs).previous_checksum
        < 2 ^ 64 := by
  refine ⟨rfl, rfl, ?_⟩
  show spend_checksum prevout < 2 ^ 64
  exact Nat.mod_lt _ (by positivity)

/-- C7: `spend_checksum` is a total, pure, deterministic function from
output points into the 64-bit range: defined for every point, and equal
points always yield equal results. -/
theorem spend_checksum_total_pure (p : ChainPoint) :
    spend_checksum p < 2 ^ 64
    ∧ ∀ q : ChainPoint, p = q → spend_checksum p = spend_checksum q := by
  constructor
  · exact Nat.mod_lt _ (by positivity)
  · intro q hq
    rw [hq]

/-- Witness for C7 at a concrete point. -/
theorem spend_checksum_total_pure_witness :
    spend_checksum ⟨3, 1⟩ < 2 ^ 64
    ∧ spend_checksum ⟨3, 1⟩ = spend_checksum ⟨3, 1⟩ :=
  ⟨(spend_checksum_total_pure ⟨3, 1⟩).1,
    (spend_checksum_total_pure ⟨3, 1⟩).2 ⟨3, 1⟩ rfl⟩

/-- C2: one reorganization delivers exactly one notification to each
subscriber registered before it — the invocation log grows by precisely the
subscriber list, one entry per subscriber, so `N` subscribers yield `N`
deliveries and none before — and the subscriber list is cleared, so a
second reorganization delivers nothing without resubscription. -/
theorem reorganize_exactly_once_one_shot (st : ChainState) (fp : Nat)
    (added removed : List Block) (fp2 : Nat) (a2 r2 : List Block) :
    (reorganize st fp added removed).notes
        = st.notes
          ++ st.subs.map (fun s => (s, ⟨code.success, fp, added, removed⟩))
    ∧ (reorganize st fp added removed).notes.length
        = st.notes.length + st.subs.length
    ∧ (reorganize st fp added removed).subs = []
    ∧ (reorganize (reorganize st fp added removed) fp2 a2 r2).notes
        = (reorganize st fp added removed).notes := by
  refine ⟨rfl, ?_, rfl, ?_⟩
  · simp [reorganize]
  · simp [reorganize]

/-- C6: stopping the service while subscribers are pending still invokes
every pending subscriber's handler, with the `service_stopped` code in
place of chain data; the log grows by exactly one entry per pending
subscriber (none dropped, and — for distinct subscribers — each invoked
exactly once), and the list is cleared. -/
theorem stop_service_notifies_pending (st : ChainState) (s : Nat)
    (hs : s ∈ st.subs) :
    (stop_service st).notes
        = st.notes
          ++ st.subs.map (fun b => (b, ⟨code.service_stopped, 0, [], []⟩))
    ∧ (stop_service st).notes.length = st.notes.length + st.subs.length
    ∧ (s, (⟨code.service_stopped, 0, [], []⟩ : ReorgEvent))
        ∈ (stop_service st).notes
    ∧ (stop_service st).subs = []
    ∧ (st.subs.Nodup →
        ((stop_service st).notes.filter (fun n => n.1 == s)).length
          = (st.notes.filter (fun n => n.1 == s)).length + 1) := by
  refine ⟨rfl, ?_, ?_, rfl, ?_⟩
  · simp [stop_service]
  · exact List.mem_append_right _ (List.mem_map.mpr ⟨s, hs, rfl⟩)
  · intro hnd
    have h1 : ((st.subs.map
          (fun b => (b, (⟨code.service_stopped, 0, [], []⟩ : ReorgEvent)))).filter
            (fun n => n.1 == s))
        = (st.subs.filter (fun b => b == s)).map
            (fun b => (b, ⟨code.service_stopped, 0, [], []⟩)) :=
      List.filter_map _ st.subs
    have h2 : (st.subs.filter (fun b => b == s)).length = 1 := by
      have := List.count_eq_one_of_mem hnd hs
      rwa [List.count, List.countP_eq_length_filter] at this
    show ((st.notes ++ _).filter _).length = _
    rw [List.filter_append, List.length_append, h1, List.length_map, h2]

/-- Witness for C6 at a concrete pending state. -/
theorem stop_service_notifies_pending_witness :
    (1, (⟨code.service_stopped, 0, [], []⟩ : ReorgEvent))
        ∈ (stop_service exState).notes
    ∧ (stop_service exState).subs = []
    ∧ ((stop_service exState).notes.filter (fun n => n.1 == 1)).length
        = (exState.notes.filter (fun n => n.1 == 1)).length + 1 := by
  have h := stop_service_notifies_pending exState 1 (by decide)
  exact ⟨h.2.2.1, h.2.2.2.1, h.2.2.2.2 (by decide)⟩

/-- C1: index revision strictly precedes notification — in the state in
which the reorganize handlers are invoked with `(fork_point, added,
removed)` (the post-state of `reorganize`, whose invocation log records
exactly those deliveries), every History and Stealth row above the fork
point derived from a removed block (and not re-derived from an added block)
is already absent from the indexes, and every row derived from an added
block is already present. -/
theorem reorganize_revises_indexes_before_notification (st : ChainState)
    (fp : Nat) (added removed : List Block) :
    (reorganize st fp added removed).notes
        = st.notes
          ++ st.subs.map (fun s => (s, ⟨code.success, fp, added, removed⟩))
    ∧ (∀ b, b ∈ removed → ∀ ar, ar ∈ blockRows b → fp < ar.2.height →
        ar ∉ (added.map blockRows).flatten →
        ar.2 ∉ hlookup (reorganize st fp added removed).history ar.1)
    ∧ (∀ b, b ∈ added → ∀ ar, ar ∈ blockRows b →
        ar.2 ∈ hlookup (reorganize st fp added removed).history ar.1)
    ∧ (∀ b, b ∈ removed → ∀ e, e ∈ blockStealth b → fp < e.height →
        e ∉ (added.map blockStealth).flatten →
        e ∉ (reorganize st fp added removed).stealth)
    ∧ (∀ b, b ∈ added → ∀ e, e ∈ blockStealth b →
        e ∈ (reorganize st fp added removed).stealth) := by
  have hhist : (reorganize st fp added removed).history
      = (((added.map blockRows).flatten).map
            (fun ar => HistOp.append ar.1 ar.2)).foldl applyOp
          ((((removed.map blockRows).flatten).map
              (fun ar => HistOp.remove ar.1 (removedHeights removed))).foldl
            applyOp st.history) := by
    show (reorgHistOps added removed).foldl applyOp st.history = _
    rw [reorgHistOps, List.foldl_append]
  refine ⟨rfl, ?_, ?_, ?_, ?_⟩
  · intro b hb ar har hfp hnot hcontra
    rw [hhist] at hcontra
    have harf : ar ∈ (removed.map blockRows).flatten :=
      List.mem_flatten.mpr ⟨blockRows b, List.mem_map.mpr ⟨b, hb, rfl⟩, har⟩
    rcases mem_hlookup_foldl_inv _ _ _ _ hcontra with hm | hm
    · have hno := remove_only_no_removed_heights
        (((removed.map blockRows).flatten).map
          (fun ar => HistOp.remove ar.1 (removedHeights removed)))
        st.history ar.1 (removedHeights removed)
        (fun o ho => by
          rcases List.mem_map.mp ho with ⟨ar0, _, heq⟩
          exact ⟨ar0.1, heq.symm⟩)
        (List.mem_map.mpr ⟨ar, harf, rfl⟩)
        ar.2 hm
      have hin : (removedHeights removed).contains ar.2.height = true := by
        rcases List.mem_map.mp har with ⟨ar0, _, heq⟩
        have hh : ar.2.height = b.height := by rw [← heq]
        rw [hh]
        exact List.elem_eq_true_of_mem
          (List.mem_map.mpr ⟨b, hb, rfl⟩)
      rw [hno] at hin
      exact Bool.false_ne_true hin
    · rcases List.mem_map.mp hm with ⟨ar0, har0, heq⟩
      have heq2 : HistOp.append ar0.1 ar0.2 = HistOp.append ar.1 ar.2 := heq
      injection heq2 with h1 h2
      have : ar0 = ar := Prod.ext h1 h2
      rw [this] at har0
      exact hnot har0
  · intro b hb ar har
    rw [hhist]
    have harf : ar ∈ (added.map blockRows).flatten :=
      List.mem_flatten.mpr ⟨blockRows b, List.mem_map.mpr ⟨b, hb, rfl⟩, har⟩
    exact append_mem_hlookup_foldl _ _ _ _
      (fun o ho => by
        rcases List.mem_map.mp ho with ⟨ar0, _, heq⟩
        exact ⟨ar0.1, ar0.2, heq.symm⟩)
      (List.mem_map.mpr ⟨ar, harf, rfl⟩)
  · intro b hb e he hfp hnot hcontra
    have hst : (reorganize st fp added removed).stealth
        = (st.stealth.filter
            (fun e => ¬ (removedHeights removed).contains e.height))
          ++ (added.map blockStealth).flatten := rfl
    rw [hst] at hcontra
    rcases List.mem_append.mp hcontra with hm | hm
    · have h2 := (List.mem_filter.mp hm).2
      have hh : e.height = b.height := by
        rcases List.mem_map.mp he with ⟨r0, _, heq⟩
        rw [← heq]
      have hin : (removedHeights removed).contains e.height = true := by
        rw [hh]
        exact List.elem_eq_true_of_mem (List.mem_map.mpr ⟨b, hb, rfl⟩)
      rw [hin] at h2
      exact absurd h2 (by simp)
    · exact hnot hm
  · intro b hb e he
    exact List.mem_append_right _
      (List.mem_flatten.mpr ⟨blockStealth b, List.mem_map.mpr ⟨b, hb, rfl⟩, he⟩)

/-- Witness for C1 on the spec's reorganization scenario: after replacing
the height-3 block, the old branch's derived rows are gone from both
indexes and the new branch's rows are present, in the very state whose log
shows the notifications. -/
theorem reorganize_revises_indexes_witness :
    (⟨point_ident.output, ⟨100, 0⟩, 3, 50⟩ : history_row)
        ∉ hlookup (reorganize exState 2 [blockB3] [blockA3]).history 7
    ∧ (⟨point_ident.output, ⟨200, 1⟩, 3, 70⟩ : history_row)
        ∈ hlookup (reorganize exState 2 [blockB3] [blockA3]).history 7
    ∧ (⟨exStealthA, 3⟩ : stealth_entry)
        ∉ (reorganize exState 2 [blockB3] [blockA3]).stealth
    ∧ (⟨exStealthB, 3⟩ : stealth_entry)
        ∈ (reorganize exState 2 [blockB3] [blockA3]).stealth := by
  have h := reorganize_revises_indexes_before_notification exState 2
    [blockB3] [blockA3]
  refine ⟨?_, ?_, ?_, ?_⟩
  · exact h.2.1 blockA3 (by decide)
      (7, ⟨point_ident.output, ⟨100, 0⟩, 3, 50⟩) (by decide) (by decide)
      (by decide)
  · exact h.2.2.1 blockB3 (by decide)
      (7, ⟨point_ident.output, ⟨200, 1⟩, 3, 70⟩) (by decide)
  · exact h.2.2.2.1 blockA3 (by decide) ⟨exStealthA, 3⟩ (by decide)
      (by decide) (by decide)
  · exact h.2.2.2.2 blockB3 (by decide) ⟨exStealthB, 3⟩ (by decide)

end Libbitcoin
